import Mathlib

/-!
Shallow embedding of the pyru arithmetic-expression prototype
(src/prototype.py): scanner, recursive-descent parser and tree evaluator,
together with proofs about the claims of the specification.

Modelling conventions:
* Python strings become lists of characters; indices become naturals.
* Python float arithmetic is modelled over the rationals.  Every claim
  about a concrete result involves only small integers and short decimal
  literals, on which IEEE binary64 arithmetic is exact, so the rational
  model agrees with the Python values.
* Every Python ValueError / IndexError / AttributeError / TypeError /
  ZeroDivisionError becomes a constructor of the inductive type Err, and
  fallible functions return Except Err.
* The recursive parser functions of the source are embedded with an
  explicit fuel argument; out-of-fuel is a distinguished error that no
  theorem ever treats as program behaviour, and the entry points supply
  ample fuel.
-/

deriving instance DecidableEq for Except

namespace Pyru

/-- Token kinds, as in the TokenType enum of the source. -/
inductive TokenType where
  | plus
  | minus
  | asterisk
  | fslash
  | lbracket
  | rbracket
  | num
  | dot
deriving DecidableEq, Repr

/-- A token: kind, optional literal text (only Number tokens carry text in
the program) and character length, as in the Token class of the source. -/
structure Token where
  ttype : TokenType
  value : Option (List Char)
  length : Nat
deriving DecidableEq, Repr

instance : Inhabited Token := ⟨⟨TokenType.plus, none, 1⟩⟩

/-- All run-time failures of the program.  The Python source raises
ValueError for lexical, parse, operator and float-conversion failures,
IndexError for out-of-range list indexing, ZeroDivisionError for division
by zero, TypeError for float(None) and AttributeError when a method is
missing; outOfFuel is a modelling artefact of the fuelled loops only. -/
inductive Err where
  | unknownChar
  | multipleDecimalPoints
  | unexpectedToken
  | expectedClosingBracket
  | indexError
  | attributeError
  | zeroDivisionError
  | typeErrorFloat
  | valueErrorFloat
  | unknownOperator
  | outOfFuel
deriving DecidableEq, Repr

/-- The values produced by the parser: parse_factor returns a bare Number
Token for a literal, and the Expr class of the source holds a left child,
an operator token and a right child, each child again a Token or an Expr.
The Python program has no explicit union type; this inductive is that
union. -/
inductive Ast where
  | tok (tk : Token)
  | expr (left : Ast) (op : Token) (right : Ast)
deriving DecidableEq, Repr

/-- The digit characters, as listed literally in scan_num and in the match
statement of main. -/
def digits : List Char := ['0', '1', '2', '3', '4', '5', '6', '7', '8', '9']

/-- Numeric value of a digit character. -/
def digToNat (c : Char) : Nat := c.toNat - '0'.toNat

/-- Value of a digit string read in base ten. -/
def natVal (cs : List Char) : Nat := cs.foldl (fun a c => 10 * a + digToNat c) 0

/-- Model of the Python builtin float() on the strings the scanner can
produce: an integer part of one or more digits, optionally followed by a
dot and further digits.  Any other shape is rejected, as float() raises
ValueError on malformed text and TypeError is handled separately at the
call site. -/
def pyFloat (cs : List Char) : Option ℚ :=
  let ip := cs.takeWhile (fun c => c ∈ digits)
  let rest := cs.dropWhile (fun c => c ∈ digits)
  if ip.isEmpty then none
  else
    match rest with
    | [] => some (natVal ip : ℚ)
    | '.' :: fr =>
        if fr.all (fun c => c ∈ digits) then
          some ((natVal ip : ℚ) + (natVal fr : ℚ) / 10 ^ fr.length)
        else none
    | _ => none

/-- float(token.get_value()): TypeError on a None value, ValueError on
text float() cannot parse. -/
def floatOfToken (tk : Token) : Except Err ℚ :=
  match tk.value with
  | none => .error .typeErrorFloat
  | some cs =>
      match pyFloat cs with
      | none => .error .valueErrorFloat
      | some q => .ok q

/-- Expr.evaluate of the source: evaluate the left operand (recursively
for an Expr child, by float conversion for a Token child), then the right
operand, then dispatch on the operator kind; any operator other than the
four arithmetic ones raises ValueError("Unknown operator"), and Python
raises ZeroDivisionError exactly when the right operand of / is zero. -/
def Expr.evaluate : Ast → Except Err ℚ
  | .tok tk => floatOfToken tk
  | .expr l op r =>
      match Expr.evaluate l with
      | .error e => .error e
      | .ok lv =>
          match Expr.evaluate r with
          | .error e => .error e
          | .ok rv =>
              match op.ttype with
              | .plus => .ok (lv + rv)
              | .minus => .ok (lv - rv)
              | .asterisk => .ok (lv * rv)
              | .fslash =>
                  if rv = 0 then .error .zeroDivisionError else .ok (lv / rv)
              | _ => .error .unknownOperator

/-- main calls ast.evaluate() on the parse result; when that result is a
bare Token (a one-literal expression) the Token class has no evaluate
method and Python raises AttributeError. -/
def mainEvaluate : Ast → Except Err ℚ
  | .tok _ => .error .attributeError
  | .expr l op r => Expr.evaluate (.expr l op r)

/-! ## Scanner

The three scanning loops advance an index that is bounded by the length
of the input, so they are embedded structurally: the two loops of
scan_num advance by exactly one character per iteration and recurse on
the exact count of remaining lookahead positions, which makes the
source guard curr less than len minus one the test k greater than zero;
the outer scanning loop advances by a variable amount and carries
explicit fuel, with the source guard kept literally and fuel exhaustion
a distinguished error that ample fuel at the entry point rules out. -/

/-- First loop of scan_num with k remaining lookahead positions, where
the caller passes exactly s.length - 1 - curr: advance the index over
consecutive digit characters, looking one character ahead and never past
the end. -/
def scanNumIntAux : Nat → List Char → Nat → Nat
  | 0, _, curr => curr
  | k + 1, s, curr =>
      if s.getD (curr + 1) ' ' ∈ digits then scanNumIntAux k s (curr + 1)
      else curr

/-- First loop of scan_num, at index curr of s. -/
def scanNumInt (s : List Char) (curr : Nat) : Nat :=
  scanNumIntAux (s.length - 1 - curr) s curr

/-- Inner loop of scan_num with k remaining lookahead positions, entered
after the decimal point: advance over digits, fail on a second decimal
point, stop on anything else. -/
def scanNumFracAux : Nat → List Char → Nat → Except Err Nat
  | 0, _, curr => .ok curr
  | k + 1, s, curr =>
      if s.getD (curr + 1) ' ' ∈ digits then scanNumFracAux k s (curr + 1)
      else if s.getD (curr + 1) ' ' = '.' then .error .multipleDecimalPoints
      else .ok curr

/-- Inner loop of scan_num, at index curr of s. -/
def scanNumFrac (s : List Char) (curr : Nat) : Except Err Nat :=
  scanNumFracAux (s.length - 1 - curr) s curr

/-- scan_num of the source: consume digits, then optionally a decimal
point and further digits; returns the index of the last character of the
number. -/
def scan_num (s : List Char) (curr : Nat) : Except Err Nat :=
  let c := scanNumInt s curr
  if c < s.length - 1 ∧ s.getD (c + 1) ' ' = '.' then
    scanNumFrac s (c + 1)
  else .ok c

/-- The scanning loop of main, with fuel: dispatch on the current
character, emit a token (or skip a space), advance, and fail on anything
unrecognized.  A Number token carries the consumed substring and its
length. -/
def scanLoopF : Nat → List Char → Nat → List Token → Except Err (List Token)
  | 0, _, _, _ => .error .outOfFuel
  | fuel + 1, s, curr, acc =>
      if curr < s.length then
        if s.getD curr ' ' ∈ digits then
          match scan_num s curr with
          | .error e => .error e
          | .ok c =>
              scanLoopF fuel s (c + 1)
                (acc ++ [⟨TokenType.num, some ((s.drop curr).take (c + 1 - curr)), c + 1 - curr⟩])
        else if s.getD curr ' ' = '+' then
          scanLoopF fuel s (curr + 1) (acc ++ [⟨TokenType.plus, none, 1⟩])
        else if s.getD curr ' ' = '-' then
          scanLoopF fuel s (curr + 1) (acc ++ [⟨TokenType.minus, none, 1⟩])
        else if s.getD curr ' ' = '*' then
          scanLoopF fuel s (curr + 1) (acc ++ [⟨TokenType.asterisk, none, 1⟩])
        else if s.getD curr ' ' = '/' then
          scanLoopF fuel s (curr + 1) (acc ++ [⟨TokenType.fslash, none, 1⟩])
        else if s.getD curr ' ' = '(' then
          scanLoopF fuel s (curr + 1) (acc ++ [⟨TokenType.lbracket, none, 1⟩])
        else if s.getD curr ' ' = ')' then
          scanLoopF fuel s (curr + 1) (acc ++ [⟨TokenType.rbracket, none, 1⟩])
        else if s.getD curr ' ' = '.' then
          scanLoopF fuel s (curr + 1) (acc ++ [⟨TokenType.dot, none, 1⟩])
        else if s.getD curr ' ' = ' ' then
          scanLoopF fuel s (curr + 1) acc
        else .error .unknownChar
      else .ok acc

/-- The whole scanning phase of main on an input string; every iteration
of the loop advances the index, so this fuel is ample. -/
def scanStr (src : String) : Except Err (List Token) :=
  scanLoopF (src.data.length + 1) src.data 0 []

/-! ## Parser -/

/-- consume_token of the source, with the fixed message of its only call
site: succeed and advance when the current token has the expected kind,
raise otherwise. -/
def consume_token (ts : List Token) (c : Nat) (ty : TokenType) : Except Err Nat :=
  if c < ts.length ∧ (ts.getD c default).ttype = ty then .ok (c + 1)
  else .error .expectedClosingBracket

/-- The five recursive parsing routines of the source, as the cases of
one fuelled function: the Python functions parse_expression, parse_term
and parse_factor, and the bodies of the two while loops of the first
two, which carry the accumulated left operand. -/
inductive ParseCall where
  | expression
  | exprLoop (left : Ast)
  | term
  | termLoop (left : Ast)
  | factor
deriving DecidableEq, Repr

/-- One step of the recursive-descent parser.  expression parses a term
and enters the + and - fold; exprLoop folds one more term into a
left-nested tree while the current token is + or -; term and termLoop do
the same one precedence level down with factors and * and /; factor
turns a Number token into a leaf, recurses into a bracketed expression
and then requires the closing bracket, raises IndexError past the end of
the token list and "Unexpected token" on any other token kind. -/
def parseF : Nat → ParseCall → List Token → Nat → Except Err (Ast × Nat)
  | 0, _, _, _ => .error .outOfFuel
  | f + 1, pc, ts, c =>
      match pc with
      | .expression =>
          match parseF f .term ts c with
          | .error e => .error e
          | .ok (l, c1) => parseF f (.exprLoop l) ts c1
      | .exprLoop left =>
          if c < ts.length ∧
              ((ts.getD c default).ttype = TokenType.plus ∨
                (ts.getD c default).ttype = TokenType.minus) then
            match parseF f .term ts (c + 1) with
            | .error e => .error e
            | .ok (r, c2) => parseF f (.exprLoop (.expr left (ts.getD c default) r)) ts c2
          else .ok (left, c)
      | .term =>
          match parseF f .factor ts c with
          | .error e => .error e
          | .ok (l, c1) => parseF f (.termLoop l) ts c1
      | .termLoop left =>
          if c < ts.length ∧
              ((ts.getD c default).ttype = TokenType.asterisk ∨
                (ts.getD c default).ttype = TokenType.fslash) then
            match parseF f .factor ts (c + 1) with
            | .error e => .error e
            | .ok (r, c2) => parseF f (.termLoop (.expr left (ts.getD c default) r)) ts c2
          else .ok (left, c)
      | .factor =>
          match ts.get? c with
          | none => .error .indexError
          | some tk =>
              if tk.ttype = TokenType.num then .ok (.tok tk, c + 1)
              else if tk.ttype = TokenType.lbracket then
                match parseF f .expression ts (c + 1) with
                | .error e => .error e
                | .ok (e, c1) =>
                    match consume_token ts c1 TokenType.rbracket with
                    | .error er => .error er
                    | .ok c2 => .ok (e, c2)
              else .error .unexpectedToken

/-- Fuel that is ample for every run of the parser on the given token
list: each recursive call consumes one unit, every fourth call advances
the index. -/
def fuelFor (ts : List Token) : Nat := 4 * ts.length + 4

/-- parse_expression as called by main and by every theorem below. -/
def parse_expression (ts : List Token) (c : Nat) : Except Err (Ast × Nat) :=
  parseF (fuelFor ts) .expression ts c

/-- parse_factor with ample fuel. -/
def parse_factor (ts : List Token) (c : Nat) : Except Err (Ast × Nat) :=
  parseF (fuelFor ts) .factor ts c

/-- The outer-bracket pre-processing of main: if the first token is a
left bracket, the last token must be a right bracket, in which case both
are dropped; otherwise main raises "Expected closing bracket".  Indexing
an empty token list raises IndexError. -/
def stripOuter : List Token → Except Err (List Token)
  | [] => .error .indexError
  | t0 :: rest =>
      if t0.ttype = TokenType.lbracket then
        if ((t0 :: rest).getLastD default).ttype = TokenType.rbracket then
          .ok ((t0 :: rest).drop 1).dropLast
        else .error .expectedClosingBracket
      else .ok (t0 :: rest)

/-- Scanning followed by the outer-bracket pre-processing and
parse_expression, exactly as main runs them. -/
def parseOfMain (src : String) : Except Err (Ast × Nat) := do
  let ts ← scanStr src
  let ts2 ← stripOuter ts
  parse_expression ts2 0

/-- The full pipeline of main: scan, strip the outer brackets, parse,
then call evaluate on the resulting object. -/
def runMain (src : String) : Except Err ℚ := do
  let (ast, _) ← parseOfMain src
  mainEvaluate ast

/-- The pipeline with main's outer-bracket pre-processing removed, used
to exhibit the result the program was intended to produce where that
pre-processing itself is the failure. -/
def scanParseEval (src : String) : Except Err ℚ := do
  let ts ← scanStr src
  let (ast, _) ← parse_expression ts 0
  mainEvaluate ast


/-! ## Semantic predicates used by the claims -/

/-- True on a successful Except value. -/
def exceptIsOk {a : Type} (x : Except Err a) : Bool :=
  match x with
  | .ok _ => true
  | .error _ => false

/-- Well-formedness of a parse tree over the token list it was parsed
from: every leaf is a Number token of the list and every operator token
is one of the four arithmetic kinds. -/
def treeWF (ts : List Token) : Ast → Bool
  | .tok tk => decide (tk ∈ ts) && decide (tk.ttype = TokenType.num)
  | .expr l op r =>
      treeWF ts l &&
        decide (op.ttype = TokenType.plus ∨ op.ttype = TokenType.minus ∨
          op.ttype = TokenType.asterisk ∨ op.ttype = TokenType.fslash) &&
        treeWF ts r

/-- A division whose right operand evaluates to zero is performed during
the post-order walk of Expr.evaluate: either in the left subtree, or,
the left subtree evaluating cleanly, in the right subtree, or at the
root when the operator is / and the right operand evaluates to zero. -/
def hasDivZero : Ast → Bool
  | .tok _ => false
  | .expr l op r =>
      hasDivZero l ||
        (exceptIsOk (Expr.evaluate l) &&
          (hasDivZero r ||
            (decide (op.ttype = TokenType.fslash) &&
              decide (Expr.evaluate r = .ok 0))))

/-- A token that, if it is a Number token, carries text that float()
accepts. -/
def numOkTok (tk : Token) : Prop :=
  tk.ttype = TokenType.num → ∃ cs, tk.value = some cs ∧ (pyFloat cs).isSome = true

/-! ## Helper lemmas -/

theorem scanNumIntAux_ge (k : Nat) (s : List Char) (curr : Nat) :
    curr ≤ scanNumIntAux k s curr := by
  induction k generalizing curr with
  | zero => exact Nat.le_refl _
  | succ k ih =>
      rw [scanNumIntAux]
      split
      · exact Nat.le_trans (Nat.le_succ curr) (ih (curr + 1))
      · exact Nat.le_refl _

theorem scanNumFracAux_ge (k : Nat) (s : List Char) (curr c : Nat)
    (h : scanNumFracAux k s curr = .ok c) : curr ≤ c := by
  induction k generalizing curr with
  | zero => cases h; exact Nat.le_refl _
  | succ k ih =>
      rw [scanNumFracAux] at h
      split at h
      · exact Nat.le_trans (Nat.le_succ curr) (ih (curr + 1) h)
      · split at h
        · cases h
        · cases h; exact Nat.le_refl _

theorem scan_num_ge (s : List Char) (curr c : Nat)
    (h : scan_num s curr = .ok c) : curr ≤ c := by
  rw [scan_num] at h
  split at h
  · have h1 : curr ≤ scanNumInt s curr := scanNumIntAux_ge _ s curr
    have h2 : scanNumInt s curr + 1 ≤ c := scanNumFracAux_ge _ s _ c h
    omega
  · cases h
    exact scanNumIntAux_ge _ s curr


/-- Shorthand for an operator or bracket token as the scanner emits it. -/
def opTok (ty : TokenType) : Token := ⟨ty, none, 1⟩

/-- Shorthand for a Number token as the scanner emits it. -/
def numTok (cs : List Char) : Token := ⟨TokenType.num, some cs, cs.length⟩

theorem runMain_eq (src : String) (t : Ast) (n : Nat)
    (h : parseOfMain src = .ok (t, n)) : runMain src = mainEvaluate t := by
  rw [runMain, h]
  rfl

theorem scanParseEval_eq (src : String) (ts : List Token) (t : Ast) (n : Nat)
    (hs : scanStr src = .ok ts) (hp : parse_expression ts 0 = .ok (t, n)) :
    scanParseEval src = mainEvaluate t := by
  rw [scanParseEval, hs]
  show (do
    let (ast, _) ← parse_expression ts 0
    mainEvaluate ast) = mainEvaluate t
  rw [hp]
  rfl


theorem scanNumFracAux_second_dot (k : Nat) : ∀ (s : List Char) (c j : Nat),
    k = s.length - 1 - c → c ≤ j → j < s.length - 1 →
    (∀ m, c ≤ m → m < j → s.getD (m + 1) ' ' ∈ digits) →
    s.getD (j + 1) ' ' = '.' →
    scanNumFracAux k s c = .error .multipleDecimalPoints := by
  induction k with
  | zero =>
      intro s c j hk hcj hj hd hdot
      omega
  | succ k ih =>
      intro s c j hk hcj hj hd hdot
      rw [scanNumFracAux]
      by_cases hcjeq : c = j
      · have h1 : ¬(s.getD (c + 1) ' ' ∈ digits) := by rw [hcjeq, hdot]; decide
        rw [if_neg h1, if_pos (by rw [hcjeq]; exact hdot)]
      · have hcj2 : c < j := lt_of_le_of_ne hcj hcjeq
        have hdig : s.getD (c + 1) ' ' ∈ digits := hd c (le_refl c) hcj2
        rw [if_pos hdig]
        exact ih s (c + 1) j (by omega) (by omega) hj (fun m h1 h2 => hd m (by omega) h2) hdot


theorem getD_eq_of_lt {a : Type} (l : List a) (d : a) {n : Nat} (h : n < l.length) :
    l.getD n d = l.get ⟨n, h⟩ := by
  simp [List.getD_eq_getElem?_getD, List.getElem?_eq_getElem h]

theorem getD_mem {a : Type} (l : List a) (d : a) {n : Nat} (h : n < l.length) :
    l.getD n d ∈ l := by
  rw [getD_eq_of_lt l d h]
  exact l.get_mem n h

theorem getD_append_left {a : Type} (l l2 : List a) (d : a) {n : Nat} (h : n < l.length) :
    (l ++ l2).getD n d = l.getD n d := by
  simp [List.getD_eq_getElem?_getD, List.getElem?_append_left h]

theorem getD_append_head {a : Type} (l : List a) (x : a) (rest : List a) (d : a) :
    (l ++ x :: rest).getD l.length d = x := by
  simp [List.getD_eq_getElem?_getD, List.getElem?_append_right (Nat.le_refl l.length)]

theorem getD_of_get? {a : Type} {l : List a} {n : Nat} {x : a} (d : a)
    (h : l.get? n = some x) : l.getD n d = x := by
  rw [List.getD_eq_getElem?_getD, ← List.get?_eq_getElem?, h]
  rfl

theorem get?_lt {a : Type} {l : List a} {n : Nat} {x : a} (h : l.get? n = some x) :
    n < l.length := by
  rw [List.get?_eq_getElem?] at h
  exact (List.getElem?_eq_some_iff.mp h).1

theorem consume_token_ok {ts : List Token} {c c2 : Nat} {ty : TokenType}
    (h : consume_token ts c ty = .ok c2) :
    c < ts.length ∧ (ts.getD c default).ttype = ty ∧ c2 = c + 1 := by
  rw [consume_token] at h
  split at h
  · cases h
    rename_i hc
    exact ⟨hc.1, hc.2, rfl⟩
  · cases h

/-- The combined run-of-the-parser invariant: a successful parse moves
the index forwards, never past the end of the token list, produces a
well-formed tree, and every token it consumes has a kind other than Dot.
The loop modes additionally assume their accumulated left tree is
well-formed and their entry index is in range, which their callers
establish. -/
theorem parseF_ok_inv :
    ∀ (f : Nat) (pc : ParseCall) (ts : List Token) (c : Nat) (t : Ast) (n : Nat),
      parseF f pc ts c = .ok (t, n) →
      (∀ l, pc = .exprLoop l ∨ pc = .termLoop l → treeWF ts l = true ∧ c ≤ ts.length) →
      c ≤ n ∧ n ≤ ts.length ∧ treeWF ts t = true ∧
        ∀ k, c ≤ k → k < n → (ts.getD k default).ttype ≠ TokenType.dot := by
  intro f
  induction f with
  | zero =>
      intro pc ts c t n h hpre
      simp [parseF] at h
  | succ f ih =>
      intro pc ts c t n h hpre
      cases pc with
      | expression =>
          simp only [parseF] at h
          split at h
          · cases h
          · rename_i p l c1 hterm
            have h1 := ih .term ts c l c1 hterm (by intro l' hl'; rcases hl' with h' | h' <;> cases h')
            have h2 := ih (.exprLoop l) ts c1 t n h (by
              intro l' hl'
              rcases hl' with h' | h'
              · cases h'
                exact ⟨h1.2.2.1, h1.2.1⟩
              · cases h')
            refine ⟨by omega, h2.2.1, h2.2.2.1, ?_⟩
            intro k hk1 hk2
            by_cases hkc : k < c1
            · exact h1.2.2.2 k hk1 hkc
            · exact h2.2.2.2 k (by omega) hk2
      | term =>
          simp only [parseF] at h
          split at h
          · cases h
          · rename_i p l c1 hfac
            have h1 := ih .factor ts c l c1 hfac (by intro l' hl'; rcases hl' with h' | h' <;> cases h')
            have h2 := ih (.termLoop l) ts c1 t n h (by
              intro l' hl'
              rcases hl' with h' | h'
              · cases h'
              · cases h'
                exact ⟨h1.2.2.1, h1.2.1⟩)
            refine ⟨by omega, h2.2.1, h2.2.2.1, ?_⟩
            intro k hk1 hk2
            by_cases hkc : k < c1
            · exact h1.2.2.2 k hk1 hkc
            · exact h2.2.2.2 k (by omega) hk2
      | exprLoop left =>
          have hleft := hpre left (Or.inl rfl)
          simp only [parseF] at h
          split at h
          · rename_i hcond
            split at h
            · cases h
            · rename_i p r c2 hterm
              have h1 := ih .term ts (c + 1) r c2 hterm
                (by intro l' hl'; rcases hl' with h' | h' <;> cases h')
              have hopwf : treeWF ts (.expr left (ts.getD c default) r) = true := by
                simp only [treeWF, Bool.and_eq_true, decide_eq_true_eq]
                refine ⟨⟨hleft.1, ?_⟩, h1.2.2.1⟩
                rcases hcond.2 with h' | h'
                · exact Or.inl h'
                · exact Or.inr (Or.inl h')
              have h2 := ih (.exprLoop (.expr left (ts.getD c default) r)) ts c2 t n h (by
                intro l' hl'
                rcases hl' with h' | h'
                · cases h'
                  exact ⟨hopwf, h1.2.1⟩
                · cases h')
              refine ⟨by omega, h2.2.1, h2.2.2.1, ?_⟩
              intro k hk1 hk2
              by_cases hkc : k = c
              · rw [hkc]
                rcases hcond.2 with h' | h' <;> rw [h'] <;> simp
              · by_cases hkc2 : k < c2
                · exact h1.2.2.2 k (by omega) hkc2
                · exact h2.2.2.2 k (by omega) hk2
          · cases h
            exact ⟨Nat.le_refl _, hleft.2, hleft.1, by intro k hk1 hk2; omega⟩
      | termLoop left =>
          have hleft := hpre left (Or.inr rfl)
          simp only [parseF] at h
          split at h
          · rename_i hcond
            split at h
            · cases h
            · rename_i p r c2 hfac
              have h1 := ih .factor ts (c + 1) r c2 hfac
                (by intro l' hl'; rcases hl' with h' | h' <;> cases h')
              have hopwf : treeWF ts (.expr left (ts.getD c default) r) = true := by
                simp only [treeWF, Bool.and_eq_true, decide_eq_true_eq]
                refine ⟨⟨hleft.1, ?_⟩, h1.2.2.1⟩
                rcases hcond.2 with h' | h'
                · exact Or.inr (Or.inr (Or.inl h'))
                · exact Or.inr (Or.inr (Or.inr h'))
              have h2 := ih (.termLoop (.expr left (ts.getD c default) r)) ts c2 t n h (by
                intro l' hl'
                rcases hl' with h' | h'
                · cases h'
                · cases h'
                  exact ⟨hopwf, h1.2.1⟩)
              refine ⟨by omega, h2.2.1, h2.2.2.1, ?_⟩
              intro k hk1 hk2
              by_cases hkc : k = c
              · rw [hkc]
                rcases hcond.2 with h' | h' <;> rw [h'] <;> simp
              · by_cases hkc2 : k < c2
                · exact h1.2.2.2 k (by omega) hkc2
                · exact h2.2.2.2 k (by omega) hk2
          · cases h
            exact ⟨Nat.le_refl _, hleft.2, hleft.1, by intro k hk1 hk2; omega⟩
      | factor =>
          simp only [parseF] at h
          split at h
          · cases h
          · rename_i tk hget
            have hlt : c < ts.length := get?_lt hget
            have hgetD : ts.getD c default = tk := getD_of_get? default hget
            split at h
            · rename_i hnum
              cases h
              refine ⟨Nat.le_succ c, hlt, ?_, ?_⟩
              · simp only [treeWF, Bool.and_eq_true, decide_eq_true_eq]
                exact ⟨List.get?_mem hget, hnum⟩
              · intro k hk1 hk2
                have hkc : k = c := by omega
                rw [hkc, hgetD, hnum]
                simp
            · split at h
              · rename_i hlb
                split at h
                · cases h
                · rename_i e c1 hexp
                  split at h
                  · cases h
                  · rename_i c2 hcons
                    cases h
                    obtain ⟨hc1lt, hc1ty, hc2⟩ := consume_token_ok hcons
                    have h1 := ih .expression ts (c + 1) t c1 hexp
                      (by intro l' hl'; rcases hl' with h' | h' <;> cases h')
                    refine ⟨by omega, by omega, h1.2.2.1, ?_⟩
                    intro k hk1 hk2
                    by_cases hkc : k = c
                    · rw [hkc, hgetD, hlb]
                      simp
                    · by_cases hkc1 : k < c1
                      · exact h1.2.2.2 k (by omega) hkc1
                      · have hkc1e : k = c1 := by omega
                        rw [hkc1e, hc1ty]
                        simp
              · cases h



/-- More fuel never changes a successful parse. -/
theorem parseF_mono :
    ∀ (f g : Nat) (pc : ParseCall) (ts : List Token) (c : Nat) (r : Ast × Nat),
      f ≤ g → parseF f pc ts c = .ok r → parseF g pc ts c = .ok r := by
  intro f
  induction f with
  | zero =>
      intro g pc ts c r hfg h
      simp [parseF] at h
  | succ f ih =>
      intro g pc ts c r hfg h
      obtain ⟨g, rfl⟩ : ∃ g2, g = g2 + 1 := ⟨g - 1, by omega⟩
      have hfg2 : f ≤ g := by omega
      cases pc with
      | expression =>
          simp only [parseF] at h ⊢
          split at h
          · cases h
          · rename_i p l c1 hterm
            rw [ih g .term ts c (l, c1) hfg2 hterm]
            exact ih g (.exprLoop l) ts c1 r hfg2 h
      | term =>
          simp only [parseF] at h ⊢
          split at h
          · cases h
          · rename_i p l c1 hfac
            rw [ih g .factor ts c (l, c1) hfg2 hfac]
            exact ih g (.termLoop l) ts c1 r hfg2 h
      | exprLoop left =>
          simp only [parseF] at h ⊢
          split at h
          · rename_i hcond
            rw [if_pos hcond]
            split at h
            · cases h
            · rename_i p r2 c2 hterm
              rw [ih g .term ts (c + 1) (r2, c2) hfg2 hterm]
              exact ih g (.exprLoop (.expr left (ts.getD c default) r2)) ts c2 r hfg2 h
          · rename_i hcond
            rw [if_neg hcond]
            exact h
      | termLoop left =>
          simp only [parseF] at h ⊢
          split at h
          · rename_i hcond
            rw [if_pos hcond]
            split at h
            · cases h
            · rename_i p r2 c2 hfac
              rw [ih g .factor ts (c + 1) (r2, c2) hfg2 hfac]
              exact ih g (.termLoop (.expr left (ts.getD c default) r2)) ts c2 r hfg2 h
          · rename_i hcond
            rw [if_neg hcond]
            exact h
      | factor =>
          simp only [parseF] at h ⊢
          split at h
          · cases h
          · rename_i tk hget
            split at h
            · rename_i hnum
              rw [if_pos hnum]
              exact h
            · rename_i hnum
              rw [if_neg hnum]
              split at h
              · rename_i hlb
                rw [if_pos hlb]
                split at h
                · cases h
                · rename_i e c1 hexp
                  rw [ih g .expression ts (c + 1) (e, c1) hfg2 hexp]
                  exact h
              · rename_i hlb
                rw [if_neg hlb]
                exact h



theorem get?_append_left {a : Type} (l l2 : List a) {n : Nat} (h : n < l.length) :
    (l ++ l2).get? n = l.get? n := by
  simp [List.get?_eq_getElem?, List.getElem?_append_left h]

/-- Appending extra tokens whose first token is not one of the four
operator kinds does not change a successful parse: every token the
parser inspected in the original run is unchanged, and each loop that
stopped at the old end of input still stops there, because the token now
found at that position is not an operator it would consume. -/
theorem parseF_append :
    ∀ (f : Nat) (pc : ParseCall) (ts extra : List Token) (c : Nat) (t : Ast) (n : Nat),
      (∀ tk, extra.head? = some tk →
        tk.ttype ≠ TokenType.plus ∧ tk.ttype ≠ TokenType.minus ∧
          tk.ttype ≠ TokenType.asterisk ∧ tk.ttype ≠ TokenType.fslash) →
      parseF f pc ts c = .ok (t, n) →
      (∀ l, pc = .exprLoop l ∨ pc = .termLoop l → c ≤ ts.length) →
      parseF f pc (ts ++ extra) c = .ok (t, n) := by
  intro f
  induction f with
  | zero =>
      intro pc ts extra c t n hH h hpre
      simp [parseF] at h
  | succ f ih =>
      intro pc ts extra c t n hH h hpre
      cases pc with
      | expression =>
          simp only [parseF] at h ⊢
          split at h
          · cases h
          · rename_i p l c1 hterm
            have hb := parseF_ok_inv f .term ts c l c1 hterm
              (by intro l' hl'; rcases hl' with h' | h' <;> cases h')
            rw [ih .term ts extra c l c1 hH hterm
              (by intro l' hl'; rcases hl' with h' | h' <;> cases h')]
            exact ih (.exprLoop l) ts extra c1 t n hH h
              (by intro l' hl'; exact hb.2.1)
      | term =>
          simp only [parseF] at h ⊢
          split at h
          · cases h
          · rename_i p l c1 hfac
            have hb := parseF_ok_inv f .factor ts c l c1 hfac
              (by intro l' hl'; rcases hl' with h' | h' <;> cases h')
            rw [ih .factor ts extra c l c1 hH hfac
              (by intro l' hl'; rcases hl' with h' | h' <;> cases h')]
            exact ih (.termLoop l) ts extra c1 t n hH h
              (by intro l' hl'; exact hb.2.1)
      | exprLoop left =>
          have hcle : c ≤ ts.length := hpre left (Or.inl rfl)
          simp only [parseF] at h ⊢
          split at h
          · rename_i hcond
            have hclt : c < ts.length := hcond.1
            have hcond2 : c < (ts ++ extra).length ∧
                (((ts ++ extra).getD c default).ttype = TokenType.plus ∨
                  ((ts ++ extra).getD c default).ttype = TokenType.minus) := by
              rw [getD_append_left ts extra default hclt]
              exact ⟨by simp; omega, hcond.2⟩
            rw [if_pos hcond2]
            split at h
            · cases h
            · rename_i p r c2 hterm
              have hb := parseF_ok_inv f .term ts (c + 1) r c2 hterm
                (by intro l' hl'; rcases hl' with h' | h' <;> cases h')
              rw [ih .term ts extra (c + 1) r c2 hH hterm
                (by intro l' hl'; rcases hl' with h' | h' <;> cases h')]
              show parseF f (.exprLoop (.expr left ((ts ++ extra).getD c default) r))
                (ts ++ extra) c2 = Except.ok (t, n)
              rw [getD_append_left ts extra default hclt]
              exact ih (.exprLoop (.expr left (ts.getD c default) r)) ts extra c2 t n hH h
                (by intro l' hl'; exact hb.2.1)
          · rename_i hcond
            cases h
            have hcond2 : ¬(c < (ts ++ extra).length ∧
                (((ts ++ extra).getD c default).ttype = TokenType.plus ∨
                  ((ts ++ extra).getD c default).ttype = TokenType.minus)) := by
              by_cases hclt : c < ts.length
              · rw [getD_append_left ts extra default hclt]
                intro hcon
                exact hcond ⟨hclt, hcon.2⟩
              · have hce : c = ts.length := by omega
                cases extra with
                | nil =>
                    intro hcon
                    simp at hcon
                    omega
                | cons tk rest =>
                    rw [hce, getD_append_head ts tk rest default]
                    intro hcon
                    rcases hcon.2 with h' | h'
                    · exact (hH tk rfl).1 h'
                    · exact (hH tk rfl).2.1 h'
            rw [if_neg hcond2]
      | termLoop left =>
          have hcle : c ≤ ts.length := hpre left (Or.inr rfl)
          simp only [parseF] at h ⊢
          split at h
          · rename_i hcond
            have hclt : c < ts.length := hcond.1
            have hcond2 : c < (ts ++ extra).length ∧
                (((ts ++ extra).getD c default).ttype = TokenType.asterisk ∨
                  ((ts ++ extra).getD c default).ttype = TokenType.fslash) := by
              rw [getD_append_left ts extra default hclt]
              exact ⟨by simp; omega, hcond.2⟩
            rw [if_pos hcond2]
            split at h
            · cases h
            · rename_i p r c2 hfac
              have hb := parseF_ok_inv f .factor ts (c + 1) r c2 hfac
                (by intro l' hl'; rcases hl' with h' | h' <;> cases h')
              rw [ih .factor ts extra (c + 1) r c2 hH hfac
                (by intro l' hl'; rcases hl' with h' | h' <;> cases h')]
              show parseF f (.termLoop (.expr left ((ts ++ extra).getD c default) r))
                (ts ++ extra) c2 = Except.ok (t, n)
              rw [getD_append_left ts extra default hclt]
              exact ih (.termLoop (.expr left (ts.getD c default) r)) ts extra c2 t n hH h
                (by intro l' hl'; exact hb.2.1)
          · rename_i hcond
            cases h
            have hcond2 : ¬(c < (ts ++ extra).length ∧
                (((ts ++ extra).getD c default).ttype = TokenType.asterisk ∨
                  ((ts ++ extra).getD c default).ttype = TokenType.fslash)) := by
              by_cases hclt : c < ts.length
              · rw [getD_append_left ts extra default hclt]
                intro hcon
                exact hcond ⟨hclt, hcon.2⟩
              · have hce : c = ts.length := by omega
                cases extra with
                | nil =>
                    intro hcon
                    simp at hcon
                    omega
                | cons tk rest =>
                    rw [hce, getD_append_head ts tk rest default]
                    intro hcon
                    rcases hcon.2 with h' | h'
                    · exact (hH tk rfl).2.2.1 h'
                    · exact (hH tk rfl).2.2.2 h'
            rw [if_neg hcond2]
      | factor =>
          simp only [parseF] at h
          split at h
          · cases h
          · rename_i tk hget
            have hclt : c < ts.length := get?_lt hget
            have hgetE : (ts ++ extra).get? c = some tk := by
              rw [get?_append_left ts extra hclt]
              exact hget
            simp only [parseF]
            split
            · rename_i hnone
              rw [hgetE] at hnone
              cases hnone
            · rename_i tk2 hget2
              rw [hgetE] at hget2
              injection hget2 with htk
              subst htk
              split at h
              · rename_i hnum
                cases h
                rw [if_pos hnum]
              · rename_i hnum
                rw [if_neg hnum]
                split at h
                · rename_i hlb
                  rw [if_pos hlb]
                  split at h
                  · cases h
                  · rename_i e c1 hexp
                    split at h
                    · cases h
                    · rename_i c2 hcons
                      cases h
                      obtain ⟨hc1lt, hc1ty, hc2⟩ := consume_token_ok hcons
                      rw [ih .expression ts extra (c + 1) t c1 hH hexp
                        (by intro l' hl'; rcases hl' with h' | h' <;> cases h')]
                      have hconsE : consume_token (ts ++ extra) c1 TokenType.rbracket =
                          .ok (c1 + 1) := by
                        rw [consume_token]
                        rw [if_pos ⟨by simp; omega,
                          by rw [getD_append_left ts extra default hc1lt]; exact hc1ty⟩]
                      show (match consume_token (ts ++ extra) c1 TokenType.rbracket with
                        | Except.error er => Except.error er
                        | Except.ok c2 => Except.ok (t, c2)) = Except.ok (t, n)
                      rw [hconsE, hc2]
                · rename_i hlb
                  cases h



/-- On a well-formed tree the unknown-operator branch of the evaluator
is unreachable: every error it can produce is a conversion error at a
leaf or a division by zero. -/
theorem treeWF_eval_ne_unknownOp (ts : List Token) :
    ∀ t : Ast, treeWF ts t = true → Expr.evaluate t ≠ .error .unknownOperator := by
  intro t
  induction t with
  | tok tk =>
      intro hwf
      simp only [Expr.evaluate, floatOfToken]
      split
      · simp
      · split
        · simp
        · simp
  | expr l op r ihl ihr =>
      intro hwf
      simp only [treeWF, Bool.and_eq_true, decide_eq_true_eq] at hwf
      obtain ⟨⟨hl, hop⟩, hr⟩ := hwf
      have ihl2 := ihl hl
      have ihr2 := ihr hr
      simp only [Expr.evaluate]
      split
      · rename_i e hle
        intro hc
        rw [← hle] at hc
        exact ihl2 hc
      · rename_i lv hlv
        split
        · rename_i e hre
          intro hc
          rw [← hre] at hc
          exact ihr2 hc
        · rename_i rv hrv
          rcases hop with h' | h' | h' | h' <;> rw [h']
          · simp
          · simp
          · simp
          · split
            · simp
            · simp
            · simp
            · split <;> simp
            · exact absurd rfl (by assumption)


theorem scanNumIntAux_digits (k : Nat) (s : List Char) :
    ∀ curr : Nat,
      (∀ m, curr < m → m ≤ scanNumIntAux k s curr → s.getD m ' ' ∈ digits) ∧
        scanNumIntAux k s curr ≤ curr + k := by
  induction k with
  | zero =>
      intro curr
      simp only [scanNumIntAux]
      exact ⟨by intro m h1 h2; omega, by omega⟩
  | succ k ih =>
      intro curr
      simp only [scanNumIntAux]
      split
      · rename_i hdig
        have h2 := ih (curr + 1)
        refine ⟨?_, by omega⟩
        intro m h1 hm
        by_cases hmc : m = curr + 1
        · rw [hmc]
          exact hdig
        · exact h2.1 m (by omega) hm
      · exact ⟨by intro m h1 h2; omega, by omega⟩

theorem scanNumFracAux_digits (k : Nat) (s : List Char) :
    ∀ (curr c : Nat), scanNumFracAux k s curr = .ok c →
      (∀ m, curr < m → m ≤ c → s.getD m ' ' ∈ digits) ∧ c ≤ curr + k := by
  induction k with
  | zero =>
      intro curr c h
      cases h
      exact ⟨by intro m h1 h2; omega, by omega⟩
  | succ k ih =>
      intro curr c h
      rw [scanNumFracAux] at h
      split at h
      · rename_i hdig
        have h2 := ih (curr + 1) c h
        refine ⟨?_, by omega⟩
        intro m h1 hm
        by_cases hmc : m = curr + 1
        · rw [hmc]
          exact hdig
        · exact h2.1 m (by omega) hm
      · split at h
        · cases h
        · cases h
          exact ⟨by intro m h1 h2; omega, by omega⟩

theorem take_add2 {a : Type} (l : List a) :
    ∀ m n : Nat, l.take (m + n) = l.take m ++ (l.drop m).take n := by
  induction l with
  | nil => intro m n; simp
  | cons x xs ih =>
      intro m n
      cases m with
      | zero => simp
      | succ m =>
          rw [show m + 1 + n = (m + n) + 1 by omega]
          simp only [List.take_succ_cons, List.drop_succ_cons, List.cons_append]
          rw [ih m n]

theorem drop_take_cons (s : List Char) (a m : Nat) (h : a < s.length) :
    (s.drop a).take (m + 1) = s.getD a ' ' :: (s.drop (a + 1)).take m := by
  rw [List.drop_eq_getElem_cons h, List.take_succ_cons]
  congr 1
  rw [getD_eq_of_lt s ' ' h]
  simp

/-- Every character of a slice of consecutive digit positions is a
digit, and the slice is not empty when it starts in range. -/
theorem slice_all_digits (s : List Char) (d : Nat) :
    ∀ a b : Nat, b - a = d → a < s.length → a ≤ b →
      (∀ m, a ≤ m → m ≤ b → s.getD m ' ' ∈ digits) →
      (∀ y ∈ (s.drop a).take (b + 1 - a), y ∈ digits) ∧
        (s.drop a).take (b + 1 - a) ≠ [] := by
  induction d with
  | zero =>
      intro a b hd ha hab hdig
      have hba : b = a := by omega
      rw [hba, show a + 1 - a = 0 + 1 by omega, drop_take_cons s a 0 ha]
      constructor
      · intro y hy
        simp at hy
        rw [hy]
        simpa using hdig a (Nat.le_refl a) (by omega)
      · simp
  | succ d ihd =>
      intro a b hd ha hab hdig
      have hab2 : a < b := by omega
      rw [show b + 1 - a = (b + 1 - (a + 1)) + 1 by omega, drop_take_cons s a _ ha]
      by_cases ha2 : a + 1 < s.length
      · have hrest := ihd (a + 1) b (by omega) ha2 (by omega)
          (fun m h1 h2 => hdig m (by omega) h2)
        constructor
        · intro y hy
          rw [List.mem_cons] at hy
          rcases hy with hy | hy
          · rw [hy]
            simpa using hdig a (Nat.le_refl a) (by omega)
          · exact hrest.1 y hy
        · simp
      · have hnil : s.drop (a + 1) = [] := List.drop_eq_nil_of_le (by omega)
        rw [hnil]
        constructor
        · intro y hy
          simp at hy
          rw [hy]
          simpa using hdig a (Nat.le_refl a) (by omega)
        · simp

theorem pyFloat_int_isSome (cs : List Char) (h1 : cs ≠ [])
    (h2 : ∀ y ∈ cs, y ∈ digits) : (pyFloat cs).isSome = true := by
  have hp : ∀ y ∈ cs, (fun c => decide (c ∈ digits)) y = true := by
    intro y hy
    simp [h2 y hy]
  have ht : cs.takeWhile (fun c => decide (c ∈ digits)) = cs := by
    conv_lhs => rw [← List.append_nil cs]
    rw [List.takeWhile_append_of_pos hp]
    simp
  have hdw : cs.dropWhile (fun c => decide (c ∈ digits)) = [] := by
    conv_lhs => rw [← List.append_nil cs]
    rw [List.dropWhile_append_of_pos hp]
    simp
  simp only [pyFloat, ht, hdw]
  rw [if_neg (by simp [List.isEmpty_iff, h1])]
  simp

theorem pyFloat_dot_isSome (A B : List Char) (hA1 : A ≠ [])
    (hA : ∀ y ∈ A, y ∈ digits) (hB : ∀ y ∈ B, y ∈ digits) :
    (pyFloat (A ++ '.' :: B)).isSome = true := by
  have hp : ∀ y ∈ A, (fun c => decide (c ∈ digits)) y = true := by
    intro y hy
    simp [hA y hy]
  have hdotn : ¬((fun c => decide (c ∈ digits)) '.' = true) := by decide
  have ht : (A ++ '.' :: B).takeWhile (fun c => decide (c ∈ digits)) = A := by
    rw [List.takeWhile_append_of_pos hp, List.takeWhile_cons]
    rw [if_neg hdotn]
    simp
  have hdw : (A ++ '.' :: B).dropWhile (fun c => decide (c ∈ digits)) = '.' :: B := by
    rw [List.dropWhile_append_of_pos hp, List.dropWhile_cons]
    rw [if_neg hdotn]
  simp only [pyFloat, ht, hdw]
  rw [if_neg (by simp [List.isEmpty_iff, hA1])]
  rw [if_pos (by rw [List.all_eq_true]; intro y hy; simp [hB y hy])]
  simp



/-- The substring consumed by scan_num is always of a shape float()
accepts: one or more digits, optionally followed by a decimal point and
further digits. -/
theorem scan_num_pyFloat (s : List Char) (curr c : Nat) (hcur : curr < s.length)
    (hd0 : s.getD curr ' ' ∈ digits) (h : scan_num s curr = .ok c) :
    (pyFloat ((s.drop curr).take (c + 1 - curr))).isSome = true := by
  simp only [scan_num] at h
  have hge : curr ≤ scanNumInt s curr := scanNumIntAux_ge _ s curr
  have hint := scanNumIntAux_digits (s.length - 1 - curr) s curr
  have hdig1 : ∀ m, curr < m → m ≤ scanNumInt s curr → s.getD m ' ' ∈ digits := hint.1
  have hble : scanNumInt s curr ≤ s.length - 1 := by
    have := hint.2
    have h2 : scanNumIntAux (s.length - 1 - curr) s curr = scanNumInt s curr := rfl
    omega
  split at h
  · rename_i hdot
    have hfrac := scanNumFracAux_digits (s.length - 1 - (scanNumInt s curr + 1)) s
      (scanNumInt s curr + 1) c h
    have hge2 : scanNumInt s curr + 1 ≤ c := scanNumFracAux_ge _ s _ c h
    have hcle : c ≤ s.length - 1 := by
      have := hfrac.2
      omega
    rw [show c + 1 - curr = (scanNumInt s curr + 1 - curr) + (c - scanNumInt s curr) by omega,
      take_add2]
    have hdd : (s.drop curr).drop (scanNumInt s curr + 1 - curr) =
        s.drop (scanNumInt s curr + 1) := by
      rw [List.drop_drop]
      congr 1
      omega
    rw [hdd]
    rw [show c - scanNumInt s curr = (c - (scanNumInt s curr + 1)) + 1 by omega,
      drop_take_cons s (scanNumInt s curr + 1) _ (by omega)]
    rw [hdot.2]
    apply pyFloat_dot_isSome
    · exact (slice_all_digits s (scanNumInt s curr - curr) curr (scanNumInt s curr) rfl hcur hge
        (by
          intro m h1 h2
          by_cases hmc : m = curr
          · rw [hmc]; exact hd0
          · exact hdig1 m (by omega) h2)).2
    · exact (slice_all_digits s (scanNumInt s curr - curr) curr (scanNumInt s curr) rfl hcur hge
        (by
          intro m h1 h2
          by_cases hmc : m = curr
          · rw [hmc]; exact hd0
          · exact hdig1 m (by omega) h2)).1
    · by_cases hc : c = scanNumInt s curr + 1
      · rw [show c - (scanNumInt s curr + 1) = 0 by omega]
        simp
      · have hsl := slice_all_digits s (c - (scanNumInt s curr + 2)) (scanNumInt s curr + 2) c
          rfl (by omega) (by omega) (fun m h1 h2 => hfrac.1 m (by omega) h2)
        rw [show c - (scanNumInt s curr + 1) = c + 1 - (scanNumInt s curr + 2) by omega]
        exact hsl.1
  · rename_i hdot
    cases h
    have hsl := slice_all_digits s (scanNumInt s curr - curr) curr (scanNumInt s curr) rfl hcur
      hge (by
        intro m h1 h2
        by_cases hmc : m = curr
        · rw [hmc]; exact hd0
        · exact hdig1 m (by omega) h2)
    exact pyFloat_int_isSome _ hsl.2 hsl.1



/-- Every Number token the scanning loop appends carries text that
float() accepts. -/
theorem scanLoopF_numOk :
    ∀ (f : Nat) (s : List Char) (curr : Nat) (acc ts : List Token),
      scanLoopF f s curr acc = .ok ts → (∀ tk ∈ acc, numOkTok tk) →
      ∀ tk ∈ ts, numOkTok tk := by
  intro f
  induction f with
  | zero =>
      intro s curr acc ts h hacc
      simp [scanLoopF] at h
  | succ f ih =>
      intro s curr acc ts h hacc
      rw [scanLoopF] at h
      split at h
      · rename_i hlt
        split at h
        · rename_i hdig
          split at h
          · cases h
          · rename_i c hsn
            refine ih s (c + 1) _ ts h ?_
            intro tk htk
            rw [List.mem_append] at htk
            rcases htk with h1 | h1
            · exact hacc tk h1
            · simp at h1
              rw [h1]
              intro _
              exact ⟨(s.drop curr).take (c + 1 - curr), rfl,
                scan_num_pyFloat s curr c hlt (by simpa using hdig) hsn⟩
        · split at h
          · refine ih s (curr + 1) _ ts h ?_
            intro tk htk
            rw [List.mem_append] at htk
            rcases htk with h1 | h1
            · exact hacc tk h1
            · simp at h1
              rw [h1]
              intro hnum
              cases hnum
          · split at h
            · refine ih s (curr + 1) _ ts h ?_
              intro tk htk
              rw [List.mem_append] at htk
              rcases htk with h1 | h1
              · exact hacc tk h1
              · simp at h1
                rw [h1]
                intro hnum
                cases hnum
            · split at h
              · refine ih s (curr + 1) _ ts h ?_
                intro tk htk
                rw [List.mem_append] at htk
                rcases htk with h1 | h1
                · exact hacc tk h1
                · simp at h1
                  rw [h1]
                  intro hnum
                  cases hnum
              · split at h
                · refine ih s (curr + 1) _ ts h ?_
                  intro tk htk
                  rw [List.mem_append] at htk
                  rcases htk with h1 | h1
                  · exact hacc tk h1
                  · simp at h1
                    rw [h1]
                    intro hnum
                    cases hnum
                · split at h
                  · refine ih s (curr + 1) _ ts h ?_
                    intro tk htk
                    rw [List.mem_append] at htk
                    rcases htk with h1 | h1
                    · exact hacc tk h1
                    · simp at h1
                      rw [h1]
                      intro hnum
                      cases hnum
                  · split at h
                    · refine ih s (curr + 1) _ ts h ?_
                      intro tk htk
                      rw [List.mem_append] at htk
                      rcases htk with h1 | h1
                      · exact hacc tk h1
                      · simp at h1
                        rw [h1]
                        intro hnum
                        cases hnum
                    · split at h
                      · refine ih s (curr + 1) _ ts h ?_
                        intro tk htk
                        rw [List.mem_append] at htk
                        rcases htk with h1 | h1
                        · exact hacc tk h1
                        · simp at h1
                          rw [h1]
                          intro hnum
                          cases hnum
                      · split at h
                        · exact ih s (curr + 1) acc ts h hacc
                        · cases h
      · cases h
        exact hacc

theorem scanStr_numOk (src : String) (ts : List Token) (h : scanStr src = .ok ts) :
    ∀ tk ∈ ts, numOkTok tk := by
  rw [scanStr] at h
  refine scanLoopF_numOk _ _ _ _ _ h ?_
  intro tk htk
  cases htk

/-- Every token surviving the outer-bracket strip was in the scanned
list. -/
theorem stripOuter_subset (ts ts2 : List Token) (h : stripOuter ts = .ok ts2) :
    ∀ tk ∈ ts2, tk ∈ ts := by
  cases ts with
  | nil => simp [stripOuter] at h
  | cons t0 rest =>
      rw [stripOuter] at h
      split at h
      · split at h
        · cases h
          intro tk htk
          have h1 := List.dropLast_subset _ htk
          exact List.drop_subset _ _ h1
        · cases h
      · cases h
        intro tk htk
        exact htk



/-- On a well-formed tree whose Number leaves carry float()-accepted
text, the evaluator can only fail with the division-by-zero error, and
it fails exactly when a division whose right operand evaluates to zero
is performed. -/
theorem evaluate_char (ts : List Token) (hnum : ∀ tk ∈ ts, numOkTok tk) :
    ∀ t : Ast, treeWF ts t = true →
      (∀ e, Expr.evaluate t = .error e → e = .zeroDivisionError) ∧
      (exceptIsOk (Expr.evaluate t) = false ↔ hasDivZero t = true) := by
  intro t
  induction t with
  | tok tk =>
      intro hwf
      simp only [treeWF, Bool.and_eq_true, decide_eq_true_eq] at hwf
      obtain ⟨hmem, hty⟩ := hwf
      obtain ⟨cs, hval, hfl⟩ := hnum tk hmem hty
      rw [Option.isSome_iff_exists] at hfl
      obtain ⟨q, hq⟩ := hfl
      have he : Expr.evaluate (.tok tk) = .ok q := by
        simp [Expr.evaluate, floatOfToken, hval, hq]
      constructor
      · intro e hee
        rw [he] at hee
        cases hee
      · rw [he]
        simp [exceptIsOk, hasDivZero]
  | expr l op r ihl ihr =>
      intro hwf
      simp only [treeWF, Bool.and_eq_true, decide_eq_true_eq] at hwf
      obtain ⟨⟨hl, hop⟩, hr⟩ := hwf
      have IHl := ihl hl
      have IHr := ihr hr
      cases hle : Expr.evaluate l with
      | error e =>
          have hez : e = .zeroDivisionError := IHl.1 e hle
          have hev : Expr.evaluate (.expr l op r) = .error e := by
            simp [Expr.evaluate, hle]
          have hdzl : hasDivZero l = true := by
            rw [← IHl.2, hle]
            rfl
          constructor
          · intro e2 he2
            rw [hev] at he2
            injection he2 with h3
            rw [← h3]
            exact hez
          · rw [hev]
            constructor
            · intro _
              simp [hasDivZero, hdzl]
            · intro _
              rfl
      | ok lv =>
          have hokl : exceptIsOk (Expr.evaluate l) = true := by rw [hle]; rfl
          have hdzl : hasDivZero l = false := by
            cases hb : hasDivZero l
            · rfl
            · have h2 := IHl.2.mpr hb
              rw [hle] at h2
              simp [exceptIsOk] at h2
          cases hre : Expr.evaluate r with
          | error e =>
              have hez : e = .zeroDivisionError := IHr.1 e hre
              have hev : Expr.evaluate (.expr l op r) = .error e := by
                simp [Expr.evaluate, hle, hre]
              have hdzr : hasDivZero r = true := by
                rw [← IHr.2, hre]
                rfl
              constructor
              · intro e2 he2
                rw [hev] at he2
                injection he2 with h3
                rw [← h3]
                exact hez
              · rw [hev]
                constructor
                · intro _
                  simp [hasDivZero, hdzl, hokl, hdzr]
                · intro _
                  rfl
          | ok rv =>
              have hokr : exceptIsOk (Expr.evaluate r) = true := by rw [hre]; rfl
              have hdzr : hasDivZero r = false := by
                cases hb : hasDivZero r
                · rfl
                · have h2 := IHr.2.mpr hb
                  rw [hre] at h2
                  simp [exceptIsOk] at h2
              rcases hop with h' | h' | h' | h'
              · have hev : Expr.evaluate (.expr l op r) = .ok (lv + rv) := by
                  simp [Expr.evaluate, hle, hre, h']
                constructor
                · intro e2 he2
                  rw [hev] at he2
                  cases he2
                · rw [hev]
                  simp [exceptIsOk, hasDivZero, hdzl, hokl, hdzr, h', hre]
              · have hev : Expr.evaluate (.expr l op r) = .ok (lv - rv) := by
                  simp [Expr.evaluate, hle, hre, h']
                constructor
                · intro e2 he2
                  rw [hev] at he2
                  cases he2
                · rw [hev]
                  simp [exceptIsOk, hasDivZero, hdzl, hokl, hdzr, h', hre]
              · have hev : Expr.evaluate (.expr l op r) = .ok (lv * rv) := by
                  simp [Expr.evaluate, hle, hre, h']
                constructor
                · intro e2 he2
                  rw [hev] at he2
                  cases he2
                · rw [hev]
                  simp [exceptIsOk, hasDivZero, hdzl, hokl, hdzr, h', hre]
              · by_cases hz : rv = 0
                · have hev : Expr.evaluate (.expr l op r) = .error .zeroDivisionError := by
                    simp [Expr.evaluate, hle, hre, h', hz]
                  constructor
                  · intro e2 he2
                    rw [hev] at he2
                    injection he2 with h3
                    rw [← h3]
                  · rw [hev]
                    constructor
                    · intro _
                      simp [hasDivZero, hdzl, hokl, hdzr, h', hre, hz]
                    · intro _
                      rfl
                · have hev : Expr.evaluate (.expr l op r) = .ok (lv / rv) := by
                    simp [Expr.evaluate, hle, hre, h', hz]
                  constructor
                  · intro e2 he2
                    rw [hev] at he2
                    cases he2
                  · rw [hev]
                    simp [exceptIsOk, hasDivZero, hdzl, hokl, hdzr, h', hre, hz]


/-! ## Claims -/

/-- C1: the spec asserts that scanning, parsing and evaluating the input
string (2+3)*4 succeeds and returns 20.  The program instead raises
ValueError("Expected closing bracket") in the outer-bracket
pre-processing of main, because the first token is a left bracket while
the last token is the number 4; with that pre-processing removed the
pipeline does return 20, which exhibits the intent.  The claim is right
and the pre-processing is the code bug. -/
theorem c1_grouping_main_raises :
    runMain "(2+3)*4" = .error .expectedClosingBracket ∧
    scanParseEval "(2+3)*4" = .ok 20 := by
  constructor
  · decide
  · rw [scanParseEval_eq "(2+3)*4"
      [opTok .lbracket, numTok ['2'], opTok .plus, numTok ['3'], opTok .rbracket,
        opTok .asterisk, numTok ['4']]
      (.expr (.expr (.tok (numTok ['2'])) (opTok .plus) (.tok (numTok ['3'])))
        (opTok .asterisk) (.tok (numTok ['4']))) 7 (by decide) (by decide)]
    simp [mainEvaluate, Expr.evaluate, floatOfToken, pyFloat, natVal, digToNat, digits, numTok, opTok]
    norm_num

/-- C2: the spec asserts that every valid whitespace-free arithmetic
input, in particular a single number literal, evaluates without error.
On the input 5 the scanner and parser succeed, but parse_expression
returns a bare Token rather than an Expr node, so the call
ast.evaluate() in main raises AttributeError: the claim is right and the
code is wrong on single-literal inputs. -/
theorem c2_single_literal_crashes :
    scanStr "5" = .ok [numTok ['5']] ∧
    parse_expression [numTok ['5']] 0 = .ok (.tok (numTok ['5']), 1) ∧
    runMain "5" = .error .attributeError := by
  refine ⟨by decide, by decide, ?_⟩
  decide

/-- C4: precedence.  Scanning, parsing and evaluating 2+3*4 returns 14,
with multiplication binding tighter than addition, and not 20. -/
theorem c4_precedence :
    runMain "2+3*4" = .ok 14 ∧ runMain "2+3*4" ≠ .ok 20 := by
  have h : runMain "2+3*4" = .ok 14 := by
    rw [runMain_eq "2+3*4"
      (.expr (.tok (numTok ['2'])) (opTok .plus)
        (.expr (.tok (numTok ['3'])) (opTok .asterisk) (.tok (numTok ['4'])))) 5 (by decide)]
    simp [mainEvaluate, Expr.evaluate, floatOfToken, pyFloat, natVal, digToNat, digits, numTok, opTok]
    norm_num
  refine ⟨h, ?_⟩
  rw [h]
  intro hc
  have : (14 : ℚ) = 20 := by injection hc
  norm_num at this

/-- C5: left-associativity.  Scanning and parsing 10-3-2 yields the
left-nested tree of (10-3)-2, and evaluating it returns 5. -/
theorem c5_left_associativity :
    parseOfMain "10-3-2" =
      .ok (.expr (.expr (.tok (numTok ['1', '0'])) (opTok .minus) (.tok (numTok ['3'])))
        (opTok .minus) (.tok (numTok ['2'])), 5) ∧
    runMain "10-3-2" = .ok 5 := by
  refine ⟨by decide, ?_⟩
  rw [runMain_eq "10-3-2"
    (.expr (.expr (.tok (numTok ['1', '0'])) (opTok .minus) (.tok (numTok ['3'])))
      (opTok .minus) (.tok (numTok ['2']))) 5 (by decide)]
  simp [mainEvaluate, Expr.evaluate, floatOfToken, pyFloat, natVal, digToNat, digits, numTok, opTok]
  norm_num

/-- C6: outer-bracket stripping.  Scanning and parsing (1+2) and 1+2, as
main does it with the shallow outer-bracket strip, produce equal results
and in particular structurally equal expression trees. -/
theorem c6_outer_paren_strip :
    parseOfMain "(1+2)" = parseOfMain "1+2" ∧
    parseOfMain "1+2" =
      .ok (.expr (.tok (numTok ['1'])) (opTok .plus) (.tok (numTok ['2'])), 3) := by
  exact ⟨by decide, by decide⟩


/-- C7: a malformed number with two decimal points is a lexical error:
scanning 1.2.3 fails with the multiple-decimal-points error, and in
general, whenever the inner loop of scan_num, which scans the fractional
part of a number, meets a second decimal point after zero or more
digits, the scanner fails with that error. -/
theorem c7_multiple_decimal_points :
    scanStr "1.2.3" = .error .multipleDecimalPoints ∧
    (∀ (s : List Char) (c j : Nat), c ≤ j → j < s.length - 1 →
      (∀ m, c ≤ m → m < j → s.getD (m + 1) ' ' ∈ digits) →
      s.getD (j + 1) ' ' = '.' →
      scanNumFrac s c = .error .multipleDecimalPoints) := by
  refine ⟨by decide, ?_⟩
  intro s c j hcj hj hd hdot
  exact scanNumFracAux_second_dot (s.length - 1 - c) s c j rfl hcj hj hd hdot

/-- Witness for C7: the general statement applied to the fractional scan
of 1.2.3, which starts at the first decimal point and meets the second
one after the single digit 2. -/
theorem c7_witness :
    scanNumFrac ['1', '.', '2', '.', '3'] 1 = .error .multipleDecimalPoints :=
  c7_multiple_decimal_points.2 ['1', '.', '2', '.', '3'] 1 2 (by decide) (by decide)
    (fun m h1 h2 => by
      have hm : m = 1 := by omega
      rw [hm]
      decide)
    (by decide)

/-- C10, counterexample: the claim says that any token sequence that
extends a well-formed expression with extra tokens whose first has a
kind other than Plus or Minus still parses to the tree of the leading
expression.  Appending a single Asterisk token to the tokens of 1+2
satisfies that premise, yet the term loop of the parser consumes the
Asterisk and then indexes past the end of the list, so parsing raises
IndexError instead of succeeding. -/
theorem c10_counterexample :
    parse_expression [numTok ['1'], opTok .plus, numTok ['2']] 0 =
      .ok (.expr (.tok (numTok ['1'])) (opTok .plus) (.tok (numTok ['2'])), 3) ∧
    (opTok .asterisk).ttype ≠ TokenType.plus ∧
    (opTok .asterisk).ttype ≠ TokenType.minus ∧
    parse_expression ([numTok ['1'], opTok .plus, numTok ['2']] ++ [opTok .asterisk]) 0 =
      .error .indexError := by
  refine ⟨by decide, by decide, by decide, by decide⟩


/-- C8: a standalone decimal point outside a number literal becomes a
Dot token (concretely for the input consisting of a bare dot, and in
general the scanning loop emits a Dot token and moves on whenever the
current character is a dot); a Dot token reached at factor position
makes parse_factor fail with "Unexpected token"; and no token consumed
by a successful parse is a Dot token, so no grammar rule ever consumes
one. -/
theorem c8_bare_dot :
    scanStr "." = .ok [⟨TokenType.dot, none, 1⟩] ∧
    (∀ (f : Nat) (s : List Char) (curr : Nat) (acc : List Token),
      curr < s.length → s.getD curr ' ' = '.' →
      scanLoopF (f + 1) s curr acc =
        scanLoopF f s (curr + 1) (acc ++ [⟨TokenType.dot, none, 1⟩])) ∧
    (∀ (ts : List Token) (c : Nat) (tk : Token), ts.get? c = some tk →
      tk.ttype = TokenType.dot → parse_factor ts c = .error .unexpectedToken) ∧
    (∀ (ts : List Token) (t : Ast) (n : Nat), parse_expression ts 0 = .ok (t, n) →
      ∀ k, k < n → (ts.getD k default).ttype ≠ TokenType.dot) := by
  refine ⟨by decide, ?_, ?_, ?_⟩
  · intro f s curr acc hlt hdot
    rw [scanLoopF, if_pos hlt, hdot]
    simp [digits]
  · intro ts c tk hget htk
    have hf : fuelFor ts = 4 * ts.length + 3 + 1 := by rw [fuelFor]
    rw [parse_factor, hf, parseF, hget]
    simp [htk]
  · intro ts t n h k hk
    exact (parseF_ok_inv (fuelFor ts) .expression ts 0 t n h
      (by intro l hl; rcases hl with h' | h' <;> cases h')).2.2.2 k (Nat.zero_le k) hk

/-- Witness for C8: the scanning step on a bare dot, parse_factor on a
Dot token, and the no-Dot-consumed property on the parse of 1+2. -/
theorem c8_witness :
    scanLoopF 2 ['.'] 0 [] = scanLoopF 1 ['.'] 1 [⟨TokenType.dot, none, 1⟩] ∧
    parse_factor [opTok .dot] 0 = .error .unexpectedToken ∧
    (([numTok ['1'], opTok .plus, numTok ['2']].getD 0 default).ttype ≠ TokenType.dot) :=
  ⟨c8_bare_dot.2.1 1 ['.'] 0 [] (by decide) (by decide),
    c8_bare_dot.2.2.1 [opTok .dot] 0 (opTok .dot) (by decide) (by decide),
    c8_bare_dot.2.2.2 [numTok ['1'], opTok .plus, numTok ['2']]
      (.expr (.tok (numTok ['1'])) (opTok .plus) (.tok (numTok ['2']))) 3 (by decide)
      0 (by decide)⟩

/-- C9: every tree a successful parse returns is well-formed: each leaf
is a Number token of the parsed list, each operator kind is Plus, Minus,
Asterisk or Slash, and in particular no Dot or bracket token sits inside
the tree; consequently the unknown-operator branch of the evaluator is
unreachable on parser-produced trees. -/
theorem c9_tree_invariant :
    ∀ (ts : List Token) (t : Ast) (n : Nat), parse_expression ts 0 = .ok (t, n) →
      treeWF ts t = true ∧ Expr.evaluate t ≠ .error .unknownOperator := by
  intro ts t n h
  have hw := parseF_ok_inv (fuelFor ts) .expression ts 0 t n h
    (by intro l hl; rcases hl with h' | h' <;> cases h')
  exact ⟨hw.2.2.1, treeWF_eval_ne_unknownOp ts t hw.2.2.1⟩

/-- Witness for C9: the invariant on the parse of 1+2. -/
theorem c9_witness :
    treeWF [numTok ['1'], opTok .plus, numTok ['2']]
        (.expr (.tok (numTok ['1'])) (opTok .plus) (.tok (numTok ['2']))) = true ∧
      Expr.evaluate (.expr (.tok (numTok ['1'])) (opTok .plus) (.tok (numTok ['2']))) ≠
        .error .unknownOperator :=
  c9_tree_invariant [numTok ['1'], opTok .plus, numTok ['2']]
    (.expr (.tok (numTok ['1'])) (opTok .plus) (.tok (numTok ['2']))) 3 (by decide)

/-- C10, amended: trailing tokens are silently ignored provided the
first extra token is not one of the four operator kinds (the original
claim excluded only Plus and Minus, but a trailing Asterisk or Slash is
consumed by the term loop and makes the parse fail): if a token list
parses to a tree consuming the whole list, then any extension by extra
tokens whose first token is not Plus, Minus, Asterisk or Slash parses to
the same tree, discarding the extras without an error. -/
theorem c10_trailing_tokens_amended :
    ∀ (ts extra : List Token) (t : Ast), parse_expression ts 0 = .ok (t, ts.length) →
      extra ≠ [] →
      (∀ tk, extra.head? = some tk →
        tk.ttype ≠ TokenType.plus ∧ tk.ttype ≠ TokenType.minus ∧
          tk.ttype ≠ TokenType.asterisk ∧ tk.ttype ≠ TokenType.fslash) →
      parse_expression (ts ++ extra) 0 = .ok (t, ts.length) := by
  intro ts extra t h hne hH
  have h1 := parseF_append (fuelFor ts) .expression ts extra 0 t ts.length hH h
    (by intro l hl; rcases hl with h' | h' <;> cases h')
  have h2 : fuelFor ts ≤ fuelFor (ts ++ extra) := by
    rw [fuelFor, fuelFor, List.length_append]
    omega
  exact parseF_mono (fuelFor ts) (fuelFor (ts ++ extra)) .expression (ts ++ extra) 0
    (t, ts.length) h2 h1

/-- Witness for C10 amended: the tokens of 1+2)3 parse to the tree of
1+2, ignoring the trailing bracket and number. -/
theorem c10_amended_witness :
    parse_expression
        ([numTok ['1'], opTok .plus, numTok ['2']] ++ [opTok .rbracket, numTok ['3']]) 0 =
      .ok (.expr (.tok (numTok ['1'])) (opTok .plus) (.tok (numTok ['2'])),
        ([numTok ['1'], opTok .plus, numTok ['2']] : List Token).length) :=
  c10_trailing_tokens_amended [numTok ['1'], opTok .plus, numTok ['2']]
    [opTok .rbracket, numTok ['3']]
    (.expr (.tok (numTok ['1'])) (opTok .plus) (.tok (numTok ['2']))) (by decide) (by decide)
    (by
      intro tk htk
      have h0 : ([opTok .rbracket, numTok ['3']] : List Token).head? =
          some (opTok .rbracket) := rfl
      rw [h0] at htk
      injection htk with h1
      rw [← h1]
      decide)


/-- C3: for every expression tree the parser produces in the pipeline of
main (tokens from the scanner, outer brackets stripped), the evaluator
fails exactly when a division whose right operand evaluates to zero is
performed, and the only error it can produce is the division-by-zero
error: no other runtime error is propagated. -/
theorem c3_eval_error_characterization :
    ∀ (src : String) (ts ts2 : List Token) (t : Ast) (n : Nat),
      scanStr src = .ok ts → stripOuter ts = .ok ts2 →
      parse_expression ts2 0 = .ok (t, n) →
      (∀ e, Expr.evaluate t = .error e → e = .zeroDivisionError) ∧
      (exceptIsOk (Expr.evaluate t) = false ↔ hasDivZero t = true) := by
  intro src ts ts2 t n hs hstrip hp
  have h1 := scanStr_numOk src ts hs
  have h2 : ∀ tk ∈ ts2, numOkTok tk := fun tk htk =>
    h1 tk (stripOuter_subset ts ts2 hstrip tk htk)
  have h3 := (parseF_ok_inv (fuelFor ts2) .expression ts2 0 t n hp
    (by intro l hl; rcases hl with h' | h' <;> cases h')).2.2.1
  exact evaluate_char ts2 h2 t h3

/-- Witness for C3: the characterization on the pipeline tree of 8/2. -/
theorem c3_witness :
    (∀ e, Expr.evaluate (.expr (.tok (numTok ['8'])) (opTok .fslash) (.tok (numTok ['2']))) =
        .error e → e = .zeroDivisionError) ∧
    (exceptIsOk (Expr.evaluate
        (.expr (.tok (numTok ['8'])) (opTok .fslash) (.tok (numTok ['2'])))) = false ↔
      hasDivZero (.expr (.tok (numTok ['8'])) (opTok .fslash) (.tok (numTok ['2']))) = true) :=
  c3_eval_error_characterization "8/2" [numTok ['8'], opTok .fslash, numTok ['2']]
    [numTok ['8'], opTok .fslash, numTok ['2']]
    (.expr (.tok (numTok ['8'])) (opTok .fslash) (.tok (numTok ['2']))) 3
    (by decide) (by decide) (by decide)

end Pyru
